import Mathlib

/-!
Shallow embedding of the Sophia incremental-hashing engine declared in
`src/sph_sophia.h`. The repository ships only the public header (context
structures, digest sizes, and the doc comments of `init` / `update` /
`close` / `addbits_and_close`); the implementation file is not present
under `src/`, so every operation below is modelled from the
natural-language specification (`spec.md`), faithful to its algorithm
descriptions. Bytes and machine words are `Nat`; the opaque Block
Transform of spec section 4.4 is a parameter `f : List Nat → List Nat →
List Nat` (state, one block → new state), as the spec treats it as a
pluggable pure primitive.
-/

/-- Variant descriptor (spec section 3 and section 6): block size, digest
size, state shape. Modelled from the spec: the header fixes the digest
sizes (28/32/48/64 bytes) and the context structures fix block sizes 64
(small) and 128 (big) and state shapes (the `narrow` 32-bit-word view:
16 words small, 32 words big). -/
structure SophiaVariant where
  outBits : Nat
  blockSize : Nat
  digestSize : Nat
  stateWords : Nat
  wordBytes : Nat
deriving DecidableEq

/-- The Sophia-224 variant: 64-byte blocks, 28-byte digest. -/
def sophia224 : SophiaVariant := ⟨224, 64, 28, 16, 4⟩

/-- The Sophia-256 variant: 64-byte blocks, 32-byte digest. -/
def sophia256 : SophiaVariant := ⟨256, 64, 32, 16, 4⟩

/-- The Sophia-384 variant: 128-byte blocks, 48-byte digest. -/
def sophia384 : SophiaVariant := ⟨384, 128, 48, 32, 4⟩

/-- The Sophia-512 variant: 128-byte blocks, 64-byte digest. -/
def sophia512 : SophiaVariant := ⟨512, 128, 64, 32, 4⟩

/-- The four variants of the family (spec section 6). -/
def sophiaVariants : List SophiaVariant := [sophia224, sophia256, sophia384, sophia512]

/-- Context (spec section 3, header `sph_sophia_small_context` /
`sph_sophia_big_context`): `buf` models the valid prefix of the
fixed-capacity buffer (its length is the `fill` / `ptr` field), `state`
the running hash state as a word sequence, and `count` the lossless
total of input bytes absorbed since the last init (header field
`sph_u64 count`). -/
structure SophiaCtx where
  buf : List Nat
  state : List Nat
  count : Nat
deriving DecidableEq

/-- Modelled from the spec (section 4.1 Init): `fill = 0`,
`total_length = 0`, `state` set to the variant's initial constant
vector `iv`. -/
def sophia_init (iv : List Nat) : SophiaCtx :=
  ⟨[], iv, 0⟩

/-- Modelled from the spec (section 4.1): Init applied to a context
holding arbitrary prior contents overwrites every field; the prior
contents are ignored. -/
def sophia_init_any (old : SophiaCtx) (iv : List Nat) : SophiaCtx :=
  { old with buf := [], state := iv, count := 0 }

/-- Modelled from the spec (section 4.2 step 3): while the unconsumed
data is at least one block long, invoke the Block Transform `f` on each
block-sized slice; return the new state and the remaining tail. -/
def absorbBlocks (bs : Nat) (f : List Nat → List Nat → List Nat)
    (s : List Nat) (data : List Nat) : List Nat × List Nat :=
  if _h : 0 < bs ∧ bs ≤ data.length then
    absorbBlocks bs f (f s (data.take bs)) (data.drop bs)
  else
    (s, data)
termination_by data.length
decreasing_by
  simp only [List.length_drop]
  omega

/-- Modelled from the spec (section 4.2 Update): if `fill + length <
block_size`, append into the buffer and advance `fill` and
`total_length`; otherwise top the buffer up to exactly one block, run
the Block Transform on it, then run the transform directly on each
remaining full block and keep the final short tail in the buffer. -/
def sophia_update (bs : Nat) (f : List Nat → List Nat → List Nat)
    (c : SophiaCtx) (data : List Nat) : SophiaCtx :=
  if c.buf.length + data.length < bs then
    ⟨c.buf ++ data, c.state, c.count + data.length⟩
  else
    let need := bs - c.buf.length
    let s1 := f c.state (c.buf ++ data.take need)
    let p := absorbBlocks bs f s1 (data.drop need)
    ⟨p.2, p.1, c.count + data.length⟩

/-- Feed a sequence of chunks through successive update calls. -/
def sophia_updates (bs : Nat) (f : List Nat → List Nat → List Nat)
    (c : SophiaCtx) (chunks : List (List Nat)) : SophiaCtx :=
  chunks.foldl (sophia_update bs f) c

/-- Little-endian base-256 digits of `v`, exactly `k` bytes. -/
def leBytes : Nat → Nat → List Nat
  | 0, _ => []
  | k + 1, v => v % 256 :: leBytes k (v / 256)

/-- Fixed-width big-endian byte encoding of `v` on `k` bytes (spec
section 4.3: the length field of the padding). -/
def beBytes (k v : Nat) : List Nat :=
  (leBytes k v).reverse

/-- Value denoted by a big-endian byte string. -/
def beVal (l : List Nat) : Nat :=
  l.foldl (fun acc b => acc * 256 + b) 0

/-- Modelled from the spec (section 4.3): the notional final byte built
by AddBitsAndClose from the `n` extra bits of `ub` (bits 7 down to
`8 - n`, big-endian at the byte level), followed by the single
terminating marker bit at position `7 - n` and zero bits below. -/
def hiBits (ub n : Nat) : Nat :=
  ub % 256 / 2 ^ (8 - n)

/-- The final partial byte absorbed by AddBitsAndClose: the kept high
bits of `ub` with the padding marker bit appended right after them. -/
def finalByte (ub n : Nat) : Nat :=
  hiBits ub n * 2 ^ (8 - n) + 2 ^ (7 - n)

/-- Modelled from the spec (section 4.3): the padded stream. The
buffered bytes, then the final (marker-carrying) byte, then zero bytes,
then the fixed-width big-endian encoding of the total bit length on
`block_size / 8` bytes, sized so the whole stream lands exactly on a
block boundary — one block when marker plus length field fit after the
buffered bytes, two blocks otherwise. -/
def sophia_pad (bs : Nat) (buf : List Nat) (fb : Nat) (bitLen : Nat) : List Nat :=
  let lb := bs / 8
  let used := buf.length + 1 + lb
  let target := if used ≤ bs then bs else 2 * bs
  buf ++ fb :: (List.replicate (target - used) 0 ++ beBytes lb bitLen)

/-- Serialize a word-sequence state to bytes, each word big-endian on
`wb` bytes (spec section 4.3: word order and endianness fixed per
variant). -/
def serializeState (wb : Nat) (s : List Nat) : List Nat :=
  (s.map (beBytes wb)).flatten

/-- Modelled from the spec (section 4.3 AddBitsAndClose): absorb the
`n` extra bits of `ub` as one further partial byte, pad with the
marker, zeros and the bit-length field, feed the final one or two
blocks through the Block Transform, truncate the serialized state to
`digest_size` bytes, and reinitialize the context. -/
def sophia_addbits_and_close (v : SophiaVariant) (f : List Nat → List Nat → List Nat)
    (iv : List Nat) (c : SophiaCtx) (ub n : Nat) : List Nat × SophiaCtx :=
  let padded := sophia_pad v.blockSize c.buf (finalByte ub n) (8 * c.count + n)
  let p := absorbBlocks v.blockSize f c.state padded
  ((serializeState v.wordBytes p.1).take v.digestSize, sophia_init iv)

/-- Modelled from the spec (section 4.3 Close): append the terminating
marker byte `0x80`, zeros and the bit-length field, feed the final
block(s) through the Block Transform, output the first `digest_size`
bytes of the state, and reinitialize the context. -/
def sophia_close (v : SophiaVariant) (f : List Nat → List Nat → List Nat)
    (iv : List Nat) (c : SophiaCtx) : List Nat × SophiaCtx :=
  let padded := sophia_pad v.blockSize c.buf 128 (8 * c.count)
  let p := absorbBlocks v.blockSize f c.state padded
  ((serializeState v.wordBytes p.1).take v.digestSize, sophia_init iv)

/-- One-shot hash: init, one update with the whole message, close. -/
def sophia_hash (v : SophiaVariant) (f : List Nat → List Nat → List Nat)
    (iv : List Nat) (m : List Nat) : List Nat :=
  (sophia_close v f iv (sophia_update v.blockSize f (sophia_init iv) m)).1

/-- Contexts reachable through the public interface (spec section 2
data flow): a freshly initialized context, the result of an update on
a reachable context, or the context left behind by a terminal call. -/
inductive SophiaReachable (v : SophiaVariant) (f : List Nat → List Nat → List Nat)
    (iv : List Nat) : SophiaCtx → Prop where
  | init : SophiaReachable v f iv (sophia_init iv)
  | update (c : SophiaCtx) (d : List Nat) :
      SophiaReachable v f iv c → SophiaReachable v f iv (sophia_update v.blockSize f c d)
  | close (c : SophiaCtx) :
      SophiaReachable v f iv c → SophiaReachable v f iv (sophia_close v f iv c).2
  | addbits (c : SophiaCtx) (ub n : Nat) :
      SophiaReachable v f iv c → SophiaReachable v f iv (sophia_addbits_and_close v f iv c ub n).2

/-! Basic lemmas about the block-absorbing loop. -/

theorem absorbBlocks_of_lt (bs : Nat) (f : List Nat → List Nat → List Nat)
    (s : List Nat) (data : List Nat) (h : data.length < bs) :
    absorbBlocks bs f s data = (s, data) := by
  rw [absorbBlocks]
  rw [dif_neg]
  omega

theorem absorbBlocks_step (bs : Nat) (f : List Nat → List Nat → List Nat)
    (s : List Nat) (data : List Nat) (h0 : 0 < bs) (h : bs ≤ data.length) :
    absorbBlocks bs f s data
      = absorbBlocks bs f (f s (data.take bs)) (data.drop bs) := by
  rw [absorbBlocks]
  rw [dif_pos ⟨h0, h⟩]

theorem absorbBlocks_tail_lt (bs : Nat) (f : List Nat → List Nat → List Nat)
    (s : List Nat) (data : List Nat) (h0 : 0 < bs) :
    (absorbBlocks bs f s data).2.length < bs := by
  induction s, data using absorbBlocks.induct bs f with
  | case1 s data h ih =>
    rw [absorbBlocks_step bs f s data h.1 h.2]
    exact ih
  | case2 s data h =>
    rw [absorbBlocks]
    rw [dif_neg h]
    simp only []
    omega

theorem absorbBlocks_append (bs : Nat) (f : List Nat → List Nat → List Nat)
    (s : List Nat) (a b : List Nat) :
    absorbBlocks bs f s (a ++ b)
      = absorbBlocks bs f (absorbBlocks bs f s a).1 ((absorbBlocks bs f s a).2 ++ b) := by
  induction s, a using absorbBlocks.induct bs f with
  | case1 s a h ih =>
    rw [absorbBlocks_step bs f s a h.1 h.2]
    rw [absorbBlocks_step bs f s (a ++ b) h.1 (by simp; omega)]
    rw [List.take_append_of_le_length h.2, List.drop_append_of_le_length h.2]
    exact ih
  | case2 s a h =>
    have heq : absorbBlocks bs f s a = (s, a) := by
      rw [absorbBlocks, dif_neg h]
    rw [heq]

theorem absorbBlocks_state_length (bs : Nat) (f : List Nat → List Nat → List Nat)
    (hf : ∀ s b, (f s b).length = s.length)
    (s : List Nat) (data : List Nat) :
    (absorbBlocks bs f s data).1.length = s.length := by
  induction s, data using absorbBlocks.induct bs f with
  | case1 s data h ih =>
    rw [absorbBlocks_step bs f s data h.1 h.2]
    rw [ih, hf]
  | case2 s data h =>
    rw [absorbBlocks, dif_neg h]

/-! Normal form of Update: an update is the block-absorbing loop run on
the buffered bytes followed by the new data, keeping the loop state and
tail and advancing the byte count. -/

theorem sophia_update_eq (bs : Nat) (f : List Nat → List Nat → List Nat)
    (c : SophiaCtx) (d : List Nat) (h : c.buf.length < bs) :
    sophia_update bs f c d
      = ⟨(absorbBlocks bs f c.state (c.buf ++ d)).2,
         (absorbBlocks bs f c.state (c.buf ++ d)).1,
         c.count + d.length⟩ := by
  rw [sophia_update]
  by_cases hlt : c.buf.length + d.length < bs
  · rw [if_pos hlt]
    rw [absorbBlocks_of_lt bs f c.state (c.buf ++ d) (by simp; omega)]
  · rw [if_neg hlt]
    have h0 : 0 < bs := by omega
    rw [absorbBlocks_step bs f c.state (c.buf ++ d) h0 (by simp; omega)]
    have htake : (c.buf ++ d).take bs = c.buf ++ d.take (bs - c.buf.length) := by
      rw [List.take_append_eq_append_take, List.take_of_length_le (by omega)]
    have hdrop : (c.buf ++ d).drop bs = d.drop (bs - c.buf.length) := by
      rw [List.drop_append_eq_append_drop, List.drop_of_length_le (by omega)]
      simp
    rw [htake, hdrop]

theorem sophia_update_buf_lt (bs : Nat) (f : List Nat → List Nat → List Nat)
    (c : SophiaCtx) (d : List Nat) (h : c.buf.length < bs) :
    (sophia_update bs f c d).buf.length < bs := by
  rw [sophia_update_eq bs f c d h]
  exact absorbBlocks_tail_lt bs f c.state (c.buf ++ d) (by omega)

theorem sophia_update_append (bs : Nat) (f : List Nat → List Nat → List Nat)
    (c : SophiaCtx) (a b : List Nat) (h : c.buf.length < bs) :
    sophia_update bs f (sophia_update bs f c a) b = sophia_update bs f c (a ++ b) := by
  have h2 : (sophia_update bs f c a).buf.length < bs :=
    sophia_update_buf_lt bs f c a h
  rw [sophia_update_eq bs f (sophia_update bs f c a) b h2]
  rw [sophia_update_eq bs f c (a ++ b) h]
  rw [sophia_update_eq bs f c a h]
  simp only []
  rw [← List.append_assoc]
  rw [absorbBlocks_append bs f c.state (c.buf ++ a) b]
  simp [Nat.add_assoc]

theorem sophia_update_nil (bs : Nat) (f : List Nat → List Nat → List Nat)
    (c : SophiaCtx) (h : c.buf.length < bs) :
    sophia_update bs f c [] = c := by
  rw [sophia_update]
  rw [if_pos (by simpa using h)]
  simp

theorem sophia_updates_flatten (bs : Nat) (f : List Nat → List Nat → List Nat)
    (c : SophiaCtx) (chunks : List (List Nat)) (h : c.buf.length < bs) :
    sophia_updates bs f c chunks = sophia_update bs f c chunks.flatten := by
  induction chunks generalizing c with
  | nil =>
    rw [sophia_updates, List.foldl_nil, List.flatten_nil,
      sophia_update_nil bs f c h]
  | cons x xs ih =>
    rw [sophia_updates, List.foldl_cons, List.flatten_cons]
    rw [← sophia_update_append bs f c x xs.flatten h]
    exact ih (sophia_update bs f c x) (sophia_update_buf_lt bs f c x h)

theorem sophia_update_state_length (bs : Nat) (f : List Nat → List Nat → List Nat)
    (hf : ∀ s b, (f s b).length = s.length) (c : SophiaCtx) (d : List Nat) :
    (sophia_update bs f c d).state.length = c.state.length := by
  rw [sophia_update]
  split
  · rfl
  · simp only []
    rw [absorbBlocks_state_length bs f hf, hf]

theorem sophiaReachable_buf_lt (v : SophiaVariant) (f : List Nat → List Nat → List Nat)
    (iv : List Nat) (c : SophiaCtx) (h0 : 0 < v.blockSize)
    (hr : SophiaReachable v f iv c) : c.buf.length < v.blockSize := by
  induction hr with
  | init => simpa using h0
  | update c d _ ih => exact sophia_update_buf_lt v.blockSize f c d ih
  | close c _ _ => simpa [sophia_close, sophia_init] using h0
  | addbits c ub n _ _ => simpa [sophia_addbits_and_close, sophia_init] using h0

theorem sophiaReachable_state_length (v : SophiaVariant) (f : List Nat → List Nat → List Nat)
    (iv : List Nat) (c : SophiaCtx) (hf : ∀ s b, (f s b).length = s.length)
    (hiv : iv.length = v.stateWords)
    (hr : SophiaReachable v f iv c) : c.state.length = v.stateWords := by
  induction hr with
  | init => simpa [sophia_init] using hiv
  | update c d _ ih =>
    rw [sophia_update_state_length v.blockSize f hf c d]
    exact ih
  | close c _ _ => simpa [sophia_close, sophia_init] using hiv
  | addbits c ub n _ _ => simpa [sophia_addbits_and_close, sophia_init] using hiv

theorem sophia_updates_reachable (v : SophiaVariant) (f : List Nat → List Nat → List Nat)
    (iv : List Nat) (c : SophiaCtx) (chunks : List (List Nat))
    (hr : SophiaReachable v f iv c) :
    SophiaReachable v f iv (sophia_updates v.blockSize f c chunks) := by
  induction chunks generalizing c with
  | nil => exact hr
  | cons x xs ih =>
    rw [sophia_updates, List.foldl_cons]
    exact ih (sophia_update v.blockSize f c x) (SophiaReachable.update c x hr)

theorem sophiaVariants_blockSize_pos (v : SophiaVariant) (hv : v ∈ sophiaVariants) :
    0 < v.blockSize := by
  fin_cases hv <;> decide

theorem sophiaVariants_digest_fits (v : SophiaVariant) (hv : v ∈ sophiaVariants) :
    v.digestSize ≤ v.wordBytes * v.stateWords := by
  fin_cases hv <;> decide

/-- C1: for every byte string and every partition of it into chunks,
feeding the chunks through successive update calls on an initialized
context and then closing yields the same digest (indeed the same
context) as feeding the whole string in a single update call and
closing, for each of the four variants. -/
theorem sophia_chunking_invariance (v : SophiaVariant) (hv : v ∈ sophiaVariants)
    (f : List Nat → List Nat → List Nat) (iv : List Nat) (chunks : List (List Nat)) :
    sophia_updates v.blockSize f (sophia_init iv) chunks
      = sophia_update v.blockSize f (sophia_init iv) chunks.flatten
    ∧ (sophia_close v f iv (sophia_updates v.blockSize f (sophia_init iv) chunks)).1
      = (sophia_close v f iv (sophia_update v.blockSize f (sophia_init iv) chunks.flatten)).1 := by
  have h0 : 0 < v.blockSize := sophiaVariants_blockSize_pos v hv
  have heq := sophia_updates_flatten v.blockSize f (sophia_init iv) chunks (by simpa using h0)
  exact ⟨heq, by rw [heq]⟩

theorem sophia_chunking_invariance_witness :
    sophia_updates sophia224.blockSize (fun s _ => s) (sophia_init [0]) [[1], [2, 3]]
      = sophia_update sophia224.blockSize (fun s _ => s) (sophia_init [0])
          ([[1], [2, 3]] : List (List Nat)).flatten
    ∧ (sophia_close sophia224 (fun s _ => s) [0]
        (sophia_updates sophia224.blockSize (fun s _ => s) (sophia_init [0]) [[1], [2, 3]])).1
      = (sophia_close sophia224 (fun s _ => s) [0]
        (sophia_update sophia224.blockSize (fun s _ => s) (sophia_init [0])
          ([[1], [2, 3]] : List (List Nat)).flatten)).1 :=
  sophia_chunking_invariance sophia224 (by decide) (fun s _ => s) [0] [[1], [2, 3]]

theorem close_eq_addbits_zero_aux (v : SophiaVariant)
    (f : List Nat → List Nat → List Nat) (iv : List Nat) (c : SophiaCtx) (ub : Nat) :
    sophia_close v f iv c = sophia_addbits_and_close v f iv c ub 0 := by
  have hfb : finalByte ub 0 = 128 := by
    rw [finalByte, hiBits]
    have h : ub % 256 / 2 ^ (8 - 0) = 0 :=
      Nat.div_eq_of_lt (lt_of_lt_of_le (Nat.mod_lt ub (by norm_num)) (by norm_num))
    rw [h]
    norm_num
  rw [sophia_close, sophia_addbits_and_close, hfb, Nat.add_zero]

/-- C2: on every context state, close produces exactly the same digest
and the same post-call context as add_bits_and_close with bit count
`n = 0`, whatever the value of `ub`, for every variant. -/
theorem sophia_close_eq_addbits_zero (v : SophiaVariant)
    (f : List Nat → List Nat → List Nat) (iv : List Nat) (c : SophiaCtx) (ub : Nat) :
    sophia_close v f iv c = sophia_addbits_and_close v f iv c ub 0 :=
  close_eq_addbits_zero_aux v f iv c ub

/-- C3: every terminal call (close or add_bits_and_close) leaves the
context in exactly the Init state for the variant: empty buffer
(`fill = 0`), zero total length, and the initial state vector; so it is
indistinguishable from a freshly initialized context. -/
theorem sophia_terminal_reinit (v : SophiaVariant)
    (f : List Nat → List Nat → List Nat) (iv : List Nat) (c : SophiaCtx) (ub n : Nat) :
    (sophia_close v f iv c).2 = sophia_init iv
    ∧ (sophia_addbits_and_close v f iv c ub n).2 = sophia_init iv
    ∧ (sophia_close v f iv c).2.buf = []
    ∧ (sophia_close v f iv c).2.count = 0
    ∧ (sophia_close v f iv c).2.state = iv :=
  ⟨rfl, rfl, rfl, rfl, rfl⟩

/-- C5: init is a total function; applied to a context holding
arbitrary prior contents it sets `fill = 0` (empty buffer),
`total_length = 0`, and the state to the initial constant vector. -/
theorem sophia_init_total (old : SophiaCtx) (iv : List Nat) :
    sophia_init_any old iv = sophia_init iv
    ∧ (sophia_init_any old iv).buf = []
    ∧ (sophia_init_any old iv).buf.length = 0
    ∧ (sophia_init_any old iv).count = 0
    ∧ (sophia_init_any old iv).state = iv :=
  ⟨rfl, rfl, rfl, rfl, rfl⟩

theorem leBytes_length (k : Nat) : ∀ v : Nat, (leBytes k v).length = k := by
  induction k with
  | zero => intro v; rfl
  | succ k ih =>
    intro v
    rw [leBytes]
    simp [ih]

theorem beBytes_length (k v : Nat) : (beBytes k v).length = k := by
  rw [beBytes, List.length_reverse, leBytes_length]

theorem serializeState_length (wb : Nat) (s : List Nat) :
    (serializeState wb s).length = wb * s.length := by
  induction s with
  | nil => rfl
  | cons w ws ih =>
    rw [serializeState] at ih ⊢
    simp only [List.map_cons, List.flatten_cons, List.length_append, beBytes_length, ih,
      List.length_cons]
    ring

/-- C4: every terminal call writes exactly `digest_size` bytes: 28 for
the 224 variant, 32 for 256, 48 for 384, 64 for 512 — provided the
Block Transform respects its contract of preserving the state shape
(spec section 4.4) and the context is reachable. -/
theorem sophia_digest_size (v : SophiaVariant) (hv : v ∈ sophiaVariants)
    (f : List Nat → List Nat → List Nat) (hf : ∀ s b, (f s b).length = s.length)
    (iv : List Nat) (hiv : iv.length = v.stateWords)
    (c : SophiaCtx) (hr : SophiaReachable v f iv c) (ub n : Nat) :
    (sophia_close v f iv c).1.length = v.digestSize
    ∧ (sophia_addbits_and_close v f iv c ub n).1.length = v.digestSize
    ∧ sophia224.digestSize = 28 ∧ sophia256.digestSize = 32
    ∧ sophia384.digestSize = 48 ∧ sophia512.digestSize = 64 := by
  have hst : c.state.length = v.stateWords :=
    sophiaReachable_state_length v f iv c hf hiv hr
  have hfit : v.digestSize ≤ v.wordBytes * v.stateWords :=
    sophiaVariants_digest_fits v hv
  refine ⟨?_, ?_, rfl, rfl, rfl, rfl⟩
  · rw [sophia_close]
    simp only [List.length_take, serializeState_length,
      absorbBlocks_state_length v.blockSize f hf, hst]
    omega
  · rw [sophia_addbits_and_close]
    simp only [List.length_take, serializeState_length,
      absorbBlocks_state_length v.blockSize f hf, hst]
    omega

theorem sophia_digest_size_witness :
    (sophia_close sophia224 (fun s _ => s) (List.replicate 16 0)
        (sophia_init (List.replicate 16 0))).1.length = sophia224.digestSize
    ∧ (sophia_addbits_and_close sophia224 (fun s _ => s) (List.replicate 16 0)
        (sophia_init (List.replicate 16 0)) 5 3).1.length = sophia224.digestSize
    ∧ sophia224.digestSize = 28 ∧ sophia256.digestSize = 32
    ∧ sophia384.digestSize = 48 ∧ sophia512.digestSize = 64 :=
  sophia_digest_size sophia224 (by decide) (fun s _ => s) (fun _ _ => rfl)
    (List.replicate 16 0) (by decide) (sophia_init (List.replicate 16 0))
    SophiaReachable.init 5 3

/-- C7: the buffer capacity equals the variant's block size (64 bytes
for the small 224/256 context, 128 for the big 384/512 context), and
the fill invariant `0 ≤ fill < block_size` holds for every context
state observable between two public calls, i.e. on every reachable
context. -/
theorem sophia_buffer_invariant (v : SophiaVariant) (hv : v ∈ sophiaVariants)
    (f : List Nat → List Nat → List Nat) (iv : List Nat) (c : SophiaCtx)
    (hr : SophiaReachable v f iv c) :
    c.buf.length < v.blockSize
    ∧ sophia224.blockSize = 64 ∧ sophia256.blockSize = 64
    ∧ sophia384.blockSize = 128 ∧ sophia512.blockSize = 128 :=
  ⟨sophiaReachable_buf_lt v f iv c (sophiaVariants_blockSize_pos v hv) hr,
    rfl, rfl, rfl, rfl⟩

theorem sophia_buffer_invariant_witness :
    (sophia_update sophia224.blockSize (fun s _ => s)
        (sophia_init [0]) (List.replicate 100 7)).buf.length < sophia224.blockSize
    ∧ sophia224.blockSize = 64 ∧ sophia256.blockSize = 64
    ∧ sophia384.blockSize = 128 ∧ sophia512.blockSize = 128 :=
  sophia_buffer_invariant sophia224 (by decide) (fun s _ => s) [0] _
    (SophiaReachable.update (sophia_init [0]) (List.replicate 100 7) SophiaReachable.init)

/-- C8: updating with length 0 is a no-op on every reachable context,
and consequently interleaving an empty-string update anywhere in a
chunk sequence changes neither the final context nor the digest. -/
theorem sophia_update_empty_noop (v : SophiaVariant) (hv : v ∈ sophiaVariants)
    (f : List Nat → List Nat → List Nat) (iv : List Nat) (c : SophiaCtx)
    (hr : SophiaReachable v f iv c) :
    sophia_update v.blockSize f c [] = c
    ∧ (∀ l1 l2 : List (List Nat),
        sophia_updates v.blockSize f (sophia_init iv) (l1 ++ [] :: l2)
          = sophia_updates v.blockSize f (sophia_init iv) (l1 ++ l2))
    ∧ (∀ l1 l2 : List (List Nat),
        (sophia_close v f iv (sophia_updates v.blockSize f (sophia_init iv) (l1 ++ [] :: l2))).1
          = (sophia_close v f iv (sophia_updates v.blockSize f (sophia_init iv) (l1 ++ l2))).1) := by
  have h0 : 0 < v.blockSize := sophiaVariants_blockSize_pos v hv
  have key : ∀ l1 l2 : List (List Nat),
      sophia_updates v.blockSize f (sophia_init iv) (l1 ++ [] :: l2)
        = sophia_updates v.blockSize f (sophia_init iv) (l1 ++ l2) := by
    intro l1 l2
    have hmid : SophiaReachable v f iv
        (List.foldl (sophia_update v.blockSize f) (sophia_init iv) l1) :=
      sophia_updates_reachable v f iv (sophia_init iv) l1 SophiaReachable.init
    have hnil : sophia_update v.blockSize f
        (List.foldl (sophia_update v.blockSize f) (sophia_init iv) l1) [] =
        List.foldl (sophia_update v.blockSize f) (sophia_init iv) l1 :=
      sophia_update_nil v.blockSize f _ (sophiaReachable_buf_lt v f iv _ h0 hmid)
    rw [sophia_updates, sophia_updates, List.foldl_append, List.foldl_append,
      List.foldl_cons, hnil]
  refine ⟨?_, key, fun l1 l2 => by rw [key l1 l2]⟩
  exact sophia_update_nil v.blockSize f c (sophiaReachable_buf_lt v f iv c h0 hr)

theorem sophia_update_empty_noop_witness :
    sophia_update sophia256.blockSize (fun s _ => s) (sophia_init [1]) [] = sophia_init [1]
    ∧ (∀ l1 l2 : List (List Nat),
        sophia_updates sophia256.blockSize (fun s _ => s) (sophia_init [1]) (l1 ++ [] :: l2)
          = sophia_updates sophia256.blockSize (fun s _ => s) (sophia_init [1]) (l1 ++ l2))
    ∧ (∀ l1 l2 : List (List Nat),
        (sophia_close sophia256 (fun s _ => s) [1]
          (sophia_updates sophia256.blockSize (fun s _ => s) (sophia_init [1]) (l1 ++ [] :: l2))).1
          = (sophia_close sophia256 (fun s _ => s) [1]
          (sophia_updates sophia256.blockSize (fun s _ => s) (sophia_init [1]) (l1 ++ l2))).1) :=
  sophia_update_empty_noop sophia256 (by decide) (fun s _ => s) [1] (sophia_init [1])
    SophiaReachable.init

theorem sophia_update_count (bs : Nat) (f : List Nat → List Nat → List Nat)
    (c : SophiaCtx) (d : List Nat) :
    (sophia_update bs f c d).count = c.count + d.length := by
  rw [sophia_update]
  split <;> rfl

theorem sophia_updates_count (bs : Nat) (f : List Nat → List Nat → List Nat)
    (c : SophiaCtx) (chunks : List (List Nat)) :
    (sophia_updates bs f c chunks).count = c.count + (chunks.map List.length).sum := by
  induction chunks generalizing c with
  | nil => simp [sophia_updates]
  | cons x xs ih =>
    have h1 : sophia_updates bs f c (x :: xs)
        = sophia_updates bs f (sophia_update bs f c x) xs := rfl
    rw [h1, ih (sophia_update bs f c x), sophia_update_count]
    simp [Nat.add_assoc]

theorem beBytes_succ (k v : Nat) :
    beBytes (k + 1) v = beBytes k (v / 256) ++ [v % 256] := by
  rw [beBytes, beBytes, leBytes, List.reverse_cons]

theorem beVal_append_singleton (l : List Nat) (b : Nat) :
    beVal (l ++ [b]) = beVal l * 256 + b := by
  rw [beVal, beVal, List.foldl_append, List.foldl_cons, List.foldl_nil]

theorem beVal_beBytes (k : Nat) : ∀ v : Nat, v < 256 ^ k → beVal (beBytes k v) = v := by
  induction k with
  | zero =>
    intro v hv
    interval_cases v
    rfl
  | succ k ih =>
    intro v hv
    rw [beBytes_succ, beVal_append_singleton]
    rw [ih (v / 256) (by rw [Nat.div_lt_iff_lt_mul (by norm_num)]; rw [pow_succ] at hv; exact hv)]
    omega

theorem sophia_pad_length_field (bs : Nat) (buf : List Nat) (fb L : Nat) :
    (sophia_pad bs buf fb L).drop ((sophia_pad bs buf fb L).length - bs / 8)
      = beBytes (bs / 8) L := by
  rw [sophia_pad]
  have hsplit : buf ++ fb :: (List.replicate
        ((if buf.length + 1 + bs / 8 ≤ bs then bs else 2 * bs) - (buf.length + 1 + bs / 8)) 0
        ++ beBytes (bs / 8) L)
      = (buf ++ fb :: List.replicate
        ((if buf.length + 1 + bs / 8 ≤ bs then bs else 2 * bs) - (buf.length + 1 + bs / 8)) 0)
        ++ beBytes (bs / 8) L := by
    simp
  rw [hsplit, List.length_append, beBytes_length, Nat.add_sub_cancel]
  exact List.drop_left _ _

/-- C9: the context counter losslessly records the total number of
bytes absorbed since init (so the bit count `8 * count + n` is
derivable), and the fixed-width big-endian field at the end of the
padded stream built at finalization encodes exactly that total bit
length (it decodes back to it whenever it fits the field, whose width
is `block_size / 8` bytes). -/
theorem sophia_total_length_lossless (v : SophiaVariant)
    (f : List Nat → List Nat → List Nat) (iv : List Nat)
    (chunks : List (List Nat)) (ub n : Nat)
    (hfit : 8 * (chunks.map List.length).sum + n < 256 ^ (v.blockSize / 8)) :
    (sophia_updates v.blockSize f (sophia_init iv) chunks).count
      = (chunks.map List.length).sum
    ∧ beVal ((sophia_pad v.blockSize
          (sophia_updates v.blockSize f (sophia_init iv) chunks).buf
          (finalByte ub n)
          (8 * (sophia_updates v.blockSize f (sophia_init iv) chunks).count + n)).drop
        ((sophia_pad v.blockSize
          (sophia_updates v.blockSize f (sophia_init iv) chunks).buf
          (finalByte ub n)
          (8 * (sophia_updates v.blockSize f (sophia_init iv) chunks).count + n)).length
          - v.blockSize / 8))
      = 8 * (chunks.map List.length).sum + n := by
  have hcount : (sophia_updates v.blockSize f (sophia_init iv) chunks).count
      = (chunks.map List.length).sum := by
    rw [sophia_updates_count]
    simp [sophia_init]
  refine ⟨hcount, ?_⟩
  rw [sophia_pad_length_field, hcount]
  exact beVal_beBytes (v.blockSize / 8) _ hfit

theorem sophia_total_length_lossless_witness :
    (sophia_updates sophia224.blockSize (fun s _ => s) (sophia_init [0]) [[1, 2], [3]]).count
      = (([[1, 2], [3]] : List (List Nat)).map List.length).sum
    ∧ beVal ((sophia_pad sophia224.blockSize
          (sophia_updates sophia224.blockSize (fun s _ => s) (sophia_init [0]) [[1, 2], [3]]).buf
          (finalByte 255 5)
          (8 * (sophia_updates sophia224.blockSize (fun s _ => s) (sophia_init [0]) [[1, 2], [3]]).count + 5)).drop
        ((sophia_pad sophia224.blockSize
          (sophia_updates sophia224.blockSize (fun s _ => s) (sophia_init [0]) [[1, 2], [3]]).buf
          (finalByte 255 5)
          (8 * (sophia_updates sophia224.blockSize (fun s _ => s) (sophia_init [0]) [[1, 2], [3]]).count + 5)).length
          - sophia224.blockSize / 8))
      = 8 * (([[1, 2], [3]] : List (List Nat)).map List.length).sum + 5 :=
  sophia_total_length_lossless sophia224 (fun s _ => s) [0] [[1, 2], [3]] 255 5 (by norm_num [sophia224])

theorem testBit_div_two_pow (x i j : Nat) : (x / 2 ^ i).testBit j = x.testBit (i + j) := by
  rw [Nat.testBit_to_div_mod, Nat.testBit_to_div_mod, Nat.div_div_eq_div_mul, ← pow_add]

theorem hiBits_eq (ub n : Nat) (hn : n ≤ 8) : hiBits ub n = ub / 2 ^ (8 - n) % 2 ^ n := by
  rw [hiBits]
  have h : (256 : Nat) = 2 ^ (8 - n) * 2 ^ n := by
    rw [← pow_add]
    have h8 : 8 - n + n = 8 := by omega
    rw [h8]
    norm_num
  rw [h, Nat.mod_mul_right_div_self]

theorem hiBits_lt (ub n : Nat) (hn : n ≤ 8) : hiBits ub n < 2 ^ n := by
  rw [hiBits_eq ub n hn]
  exact Nat.mod_lt _ (Nat.pos_pow_of_pos _ (by norm_num))

theorem hiBits_testBit (ub n j : Nat) (hn : n ≤ 8) :
    (hiBits ub n).testBit j = (decide (j < n) && ub.testBit (8 - n + j)) := by
  rw [hiBits_eq ub n hn, Nat.testBit_mod_two_pow, testBit_div_two_pow]

theorem hiBits_congr (a b n : Nat) (hn : n ≤ 8)
    (h : ∀ i, i < 8 → 8 - n ≤ i → a.testBit i = b.testBit i) :
    hiBits a n = hiBits b n := by
  apply Nat.eq_of_testBit_eq
  intro j
  rw [hiBits_testBit a n j hn, hiBits_testBit b n j hn]
  by_cases hj : j < n
  · rw [h (8 - n + j) (by omega) (by omega)]
  · simp [hj]

theorem finalByte_shape (ub n : Nat) (hn : n ≤ 7) :
    finalByte ub n = 2 ^ (7 - n) * (2 * hiBits ub n + 1) := by
  rw [finalByte]
  have h : (8 - n) = (7 - n) + 1 := by omega
  rw [h, pow_succ]
  ring

theorem finalByte_testBit_high (ub n i : Nat) (hn : n ≤ 7) (hi1 : 8 - n ≤ i) :
    (finalByte ub n).testBit i = (hiBits ub n).testBit (i - (8 - n)) := by
  have h1 : finalByte ub n / 2 ^ (8 - n) = hiBits ub n := by
    rw [finalByte, Nat.add_comm, Nat.add_mul_div_right _ _ (Nat.pos_pow_of_pos _ (by norm_num))]
    rw [Nat.div_eq_of_lt (Nat.pow_lt_pow_right (by norm_num) (by omega))]
    omega
  have h2 : finalByte ub n / 2 ^ i = hiBits ub n / 2 ^ (i - (8 - n)) := by
    have hi : i = (8 - n) + (i - (8 - n)) := by omega
    conv_lhs => rw [hi, pow_add]
    rw [← Nat.div_div_eq_div_mul, h1]
  rw [Nat.testBit_to_div_mod, Nat.testBit_to_div_mod, h2]

theorem finalByte_testBit_marker (ub n : Nat) (hn : n ≤ 7) :
    (finalByte ub n).testBit (7 - n) = true := by
  rw [finalByte_shape ub n hn, Nat.testBit_to_div_mod]
  rw [Nat.mul_div_cancel_left _ (Nat.pos_pow_of_pos _ (by norm_num))]
  simp [Nat.mul_add_mod]

theorem finalByte_testBit_low (ub n i : Nat) (hn : n ≤ 7) (hi : i < 7 - n) :
    (finalByte ub n).testBit i = false := by
  rw [finalByte_shape ub n hn, Nat.testBit_to_div_mod]
  have h : (7 - n) = i + ((7 - n - i - 1) + 1) := by omega
  rw [h, pow_add, Nat.mul_assoc, Nat.mul_div_cancel_left _ (Nat.pos_pow_of_pos _ (by norm_num))]
  have h2 : 2 ^ (7 - n - i - 1 + 1) * (2 * hiBits ub n + 1)
      = 2 * (2 ^ (7 - n - i - 1) * (2 * hiBits ub n + 1)) := by
    rw [pow_succ]
    ring
  rw [h2]
  simp [Nat.mul_mod_right]

theorem finalByte_lt (ub n : Nat) (hn : n ≤ 7) : finalByte ub n < 256 := by
  have h2lt : hiBits ub n < 2 ^ n := hiBits_lt ub n (by omega)
  have hp : 2 ^ (7 - n) < 2 ^ (8 - n) :=
    Nat.pow_lt_pow_right (by norm_num) (by omega)
  have hmul : (hiBits ub n + 1) * 2 ^ (8 - n) ≤ 2 ^ n * 2 ^ (8 - n) :=
    Nat.mul_le_mul_right _ h2lt
  have h256 : 2 ^ n * 2 ^ (8 - n) = 256 := by
    rw [← pow_add]
    have h8 : n + (8 - n) = 8 := by omega
    rw [h8]
    norm_num
  have hexp : (hiBits ub n + 1) * 2 ^ (8 - n)
      = hiBits ub n * 2 ^ (8 - n) + 2 ^ (8 - n) := by ring
  rw [finalByte]
  rw [hexp, h256] at hmul
  omega

theorem sophia_pad_getD_fill (bs : Nat) (buf : List Nat) (fb L : Nat) :
    (sophia_pad bs buf fb L).getD buf.length 0 = fb := by
  rw [sophia_pad]
  rw [List.getD_eq_getElem?_getD, List.getElem?_append_right (le_refl buf.length)]
  simp

/-- C6: add_bits_and_close absorbs exactly the `n` high-order bits of
`ub` (bit `i` of `ub` representing value `2^i`): the notional final
byte agrees with `ub` on bit positions 7 down to `8 - n`, carries the
padding marker bit at position `7 - n` and zeros below, is one byte,
sits in the padded stream directly after the buffered bytes, and the
digest is computed from exactly that padded stream. -/
theorem sophia_addbits_absorbs_extra_bits (v : SophiaVariant)
    (f : List Nat → List Nat → List Nat) (iv : List Nat) (c : SophiaCtx)
    (ub n : Nat) (hn : n ≤ 7) :
    (∀ i, i < 8 → 8 - n ≤ i → (finalByte ub n).testBit i = ub.testBit i)
    ∧ (finalByte ub n).testBit (7 - n) = true
    ∧ (∀ i, i < 7 - n → (finalByte ub n).testBit i = false)
    ∧ finalByte ub n < 256
    ∧ (sophia_addbits_and_close v f iv c ub n).1
        = (serializeState v.wordBytes (absorbBlocks v.blockSize f c.state
            (sophia_pad v.blockSize c.buf (finalByte ub n) (8 * c.count + n))).1).take
          v.digestSize
    ∧ (∀ L, (sophia_pad v.blockSize c.buf (finalByte ub n) L).getD c.buf.length 0
        = finalByte ub n) := by
  refine ⟨?_, finalByte_testBit_marker ub n hn, fun i hi => finalByte_testBit_low ub n i hn hi,
    finalByte_lt ub n hn, rfl, fun L => sophia_pad_getD_fill v.blockSize c.buf (finalByte ub n) L⟩
  intro i hi8 hge
  rw [finalByte_testBit_high ub n i hn hge, hiBits_testBit ub n _ (by omega)]
  have hj : i - (8 - n) < n := by omega
  have harg : 8 - n + (i - (8 - n)) = i := by omega
  simp [hj, harg]

theorem sophia_addbits_absorbs_extra_bits_witness :
    (∀ i, i < 8 → 8 - 3 ≤ i → (finalByte 171 3).testBit i = Nat.testBit 171 i)
    ∧ (finalByte 171 3).testBit (7 - 3) = true
    ∧ (∀ i, i < 7 - 3 → (finalByte 171 3).testBit i = false)
    ∧ finalByte 171 3 < 256
    ∧ (sophia_addbits_and_close sophia224 (fun s _ => s) [0] (sophia_init [0]) 171 3).1
        = (serializeState sophia224.wordBytes (absorbBlocks sophia224.blockSize (fun s _ => s)
            (sophia_init [0]).state
            (sophia_pad sophia224.blockSize (sophia_init [0]).buf (finalByte 171 3)
              (8 * (sophia_init [0]).count + 3))).1).take
          sophia224.digestSize
    ∧ (∀ L, (sophia_pad sophia224.blockSize (sophia_init [0]).buf (finalByte 171 3) L).getD
        (sophia_init [0]).buf.length 0 = finalByte 171 3) :=
  sophia_addbits_absorbs_extra_bits sophia224 (fun s _ => s) [0] (sophia_init [0]) 171 3
    (by decide)

/-- C10: the low-order `8 - n` bits of the extra-bits argument never
influence add_bits_and_close: any two values of `ub` agreeing on bit
positions 7 down to `8 - n` give the same digest and the same post-call
context, and with `n = 0` the result is independent of `ub` entirely. -/
theorem sophia_addbits_low_bits_irrelevant (v : SophiaVariant)
    (f : List Nat → List Nat → List Nat) (iv : List Nat) (c : SophiaCtx)
    (n : Nat) (hn : n ≤ 7) (ub ub2 : Nat)
    (h : ∀ i, i < 8 → 8 - n ≤ i → ub.testBit i = ub2.testBit i) :
    sophia_addbits_and_close v f iv c ub n = sophia_addbits_and_close v f iv c ub2 n
    ∧ (∀ u1 u2 : Nat,
        sophia_addbits_and_close v f iv c u1 0 = sophia_addbits_and_close v f iv c u2 0) := by
  constructor
  · have hfb : finalByte ub n = finalByte ub2 n := by
      rw [finalByte, finalByte, hiBits_congr ub ub2 n (by omega) h]
    rw [sophia_addbits_and_close, sophia_addbits_and_close, hfb]
  · intro u1 u2
    rw [← close_eq_addbits_zero_aux v f iv c u1, ← close_eq_addbits_zero_aux v f iv c u2]

theorem sophia_addbits_low_bits_irrelevant_witness :
    sophia_addbits_and_close sophia256 (fun s _ => s) [2] (sophia_init [2]) 160 3
      = sophia_addbits_and_close sophia256 (fun s _ => s) [2] (sophia_init [2]) 191 3
    ∧ (∀ u1 u2 : Nat,
        sophia_addbits_and_close sophia256 (fun s _ => s) [2] (sophia_init [2]) u1 0
          = sophia_addbits_and_close sophia256 (fun s _ => s) [2] (sophia_init [2]) u2 0) :=
  sophia_addbits_low_bits_irrelevant sophia256 (fun s _ => s) [2] (sophia_init [2]) 3
    (by decide) 160 191 (by decide)

